import Mathlib

/-!
Shallow embedding of the screen-rendering core of fish-shell (`screen.h`:
`line_t`, `screen_data_t`, `screen_t`, `layout_cache_t`) and of
`redirection.cpp` (`redirection_spec_t::get_target_as_fd`,
`dup2_list_t::fd_for_target_fd`).

Wide strings (`wcstring`) are modelled as lists of natural code units.
Operations whose implementation is only declared in the sources at hand
(`escape_code_length`, `s_write`, the prompt-layout cache operations) are
modelled from the specification and marked as such in their doc comments.
-/

/-- Wide strings (`wcstring`) are lists of code units. -/
abbrev wcstring := List Nat

/-- Lexicographic comparison of wide strings, mirroring `operator<` on
`std::wstring` (three-way comparison of code units, shorter run wins ties). -/
def wlt : wcstring → wcstring → Bool
  | _, [] => false
  | [], _ :: _ => true
  | a :: as, b :: bs => if a < b then true else if b < a then false else wlt as bs

/-- Index returned by `std::upper_bound(esc_cache_.begin(), esc_cache_.end(), s)`
on a sorted cache: the index of the first element strictly greater than `s`. -/
def upperBound : List wcstring → wcstring → Nat
  | [], _ => 0
  | x :: xs, s => if wlt s x then 0 else upperBound xs s + 1

/-- `layout_cache_t::find_escape_code`: compute the upper bound of `entry`; if
the element just before it exists and is a prefix of `entry`, return its
length, else 0. -/
def find_escape_code (esc_cache : List wcstring) (entry : wcstring) : Nat :=
  let ub := upperBound esc_cache entry
  if ub = 0 then 0
  else
    let candidate := esc_cache.getD (ub - 1) []
    if candidate.isPrefixOf entry then candidate.length else 0

/-- Insertion of an element at index `n` of a vector
(`std::vector::emplace` at an iterator position). -/
def insertAt : Nat → wcstring → List wcstring → List wcstring
  | 0, s, l => s :: l
  | _ + 1, s, [] => [s]
  | n + 1, s, x :: xs => x :: insertAt n s xs

/-- `layout_cache_t::add_escape_code`: insert `str` at its upper-bound position
unless the element just before that position already equals `str`. -/
def add_escape_code (esc_cache : List wcstring) (str : wcstring) : List wcstring :=
  let ub := upperBound esc_cache str
  if ub = 0 ∨ esc_cache.getD (ub - 1) [] ≠ str then insertAt ub str esc_cache
  else esc_cache

/-- Result of running a whole sequence of `add_escape_code` calls starting from
the empty cache. -/
def addEscapeCodes (strs : List wcstring) : List wcstring :=
  strs.foldl add_escape_code []

/-- The escape cache is strictly sorted in the lexicographic order. -/
def SortedLt (l : List wcstring) : Prop :=
  List.Pairwise (fun a b => wlt a b = true) l

/-- No cache entry is a prefix of another (distinct) entry. -/
def PrefixFree (l : List wcstring) : Prop :=
  ∀ a ∈ l, ∀ b ∈ l, a ≠ b → a.isPrefixOf b = false

instance decSortedLt : ∀ l : List wcstring, Decidable (SortedLt l)
  | [] => isTrue List.Pairwise.nil
  | x :: xs =>
    haveI := decSortedLt xs
    decidable_of_iff ((∀ b ∈ xs, wlt x b = true) ∧ SortedLt xs)
      (by
        unfold SortedLt
        constructor
        · intro h
          exact List.pairwise_cons.mpr h
        · intro h
          exact List.pairwise_cons.mp h)

instance decPrefixFree (l : List wcstring) : Decidable (PrefixFree l) := by
  unfold PrefixFree
  infer_instance

/-- Modelled from the spec: the body of a CSI sequence after `ESC [` — a run of
parameter bytes (0x30–0x3F) and intermediate bytes (0x20–0x2F) terminated by a
final byte (0x40–0x7E).  Returns the number of code units consumed, including
the final byte, or `none` when no complete CSI body starts here.
(`escape_code_length`'s implementation is not in the sources at hand.) -/
def csiTail : List Nat → Option Nat
  | [] => none
  | b :: rest =>
    if 0x20 ≤ b ∧ b ≤ 0x3F then Option.map (· + 1) (csiTail rest)
    else if 0x40 ≤ b ∧ b ≤ 0x7E then some 1
    else none

/-- Modelled from the spec: total length of a CSI sequence (`ESC [` then a CSI
body) at the start of `s`, or `none`. -/
def csiLen : List Nat → Option Nat
  | a :: b :: rest =>
    if a = 27 ∧ b = 91 then Option.map (· + 2) (csiTail rest) else none
  | _ => none

/-- Modelled from the spec: the body of an OSC sequence after `ESC ]` — any run
of bytes up to and including a BEL (0x07) or an ST (`ESC \`) terminator.
Returns the number of code units consumed, or `none` if the string ends before
a terminator. -/
def oscTail : List Nat → Option Nat
  | [] => none
  | b :: rest =>
    if b = 7 then some 1
    else if b = 27 ∧ rest.head? = some 92 then some 2
    else Option.map (· + 1) (oscTail rest)

/-- Modelled from the spec: total length of an OSC sequence (`ESC ]` then an
OSC body) at the start of `s`, or `none`. -/
def oscLen : List Nat → Option Nat
  | a :: b :: rest =>
    if a = 27 ∧ b = 93 then Option.map (· + 2) (oscTail rest) else none
  | _ => none

/-- Modelled from the spec: a two-byte escape sequence — ESC followed by a
single byte in 0x20–0x7E that does not start a CSI (`[`) or OSC (`]`). -/
def twoByteLen : List Nat → Option Nat
  | a :: b :: _ =>
    if a = 27 ∧ 0x20 ≤ b ∧ b ≤ 0x7E ∧ b ≠ 91 ∧ b ≠ 93 then some 2 else none
  | _ => none

/-- Modelled from the spec: the capability-driven fallback — the length of the
first known capability string that is a prefix of `s`, or 0. -/
def capLen : List wcstring → wcstring → Nat
  | [], _ => 0
  | c :: rest, s => if c.isPrefixOf s then c.length else capLen rest s

/-- Modelled from the spec: `escape_code_length(s)` — the length of the escape
sequence starting at `s[0]`, or 0 if none.  Tries, in order: the escape cache
(binary search), CSI, OSC, two-byte ESC sequences, and the capability fallback.
The implementation is not in the sources at hand; only its declaration is
(`screen.h` line 212). -/
def escape_code_length (esc_cache caps : List wcstring) (s : wcstring) : Nat :=
  let n := find_escape_code esc_cache s
  if n ≠ 0 then n
  else
    match csiLen s with
    | some k => k
    | none =>
      match oscLen s with
      | some k => k
      | none =>
        match twoByteLen s with
        | some k => k
        | none => capLen caps s

/-- A string parses as exactly one escape sequence (of one of the recognized
kinds): it is a registered cache entry, a complete CSI, OSC or two-byte
sequence consuming the whole string, or a known capability string. -/
def SingleSeq (esc_cache caps : List wcstring) (t : wcstring) : Prop :=
  t ∈ esc_cache ∨ csiLen t = some t.length ∨ oscLen t = some t.length ∨
    twoByteLen t = some t.length ∨ t ∈ caps

/-- Some recognized escape sequence begins at position 0 of `s`. -/
def RecognizedSeq (esc_cache caps : List wcstring) (s : wcstring) : Prop :=
  ∃ t, t ≠ [] ∧ t.isPrefixOf s = true ∧ SingleSeq esc_cache caps t

/-- `line_t` from screen.h: a single screen line, a sequence of characters with
parallel per-character colors, a soft-wrap flag and an indentation count. -/
structure line_t where
  text : List Nat
  colors : List Nat
  is_soft_wrapped : Bool
  indentation : Nat
deriving DecidableEq

/-- The default `line_t()` constructor: empty text and colors, not soft
wrapped, zero indentation. -/
def line_t.empty : line_t := ⟨[], [], false, 0⟩

/-- `line_t::clear`: clear both the text and the colors vector. -/
def line_t.clear (l : line_t) : line_t := { l with text := [], colors := [] }

/-- `line_t::append(wchar_t, highlight_spec_t)`: push one character and one
color. -/
def line_t.appendChar (l : line_t) (c color : Nat) : line_t :=
  { l with text := l.text ++ [c], colors := l.colors ++ [color] }

/-- `line_t::append(const wchar_t *, highlight_spec_t)`: push each character of
the string with the same color. -/
def line_t.appendStr (l : line_t) (s : List Nat) (color : Nat) : line_t :=
  s.foldl (fun acc c => acc.appendChar c color) l

/-- `line_t::size`. -/
def line_t.size (l : line_t) : Nat := l.text.length

/-- `line_t::char_at` uses `std::vector::at`, which faults out of range; the
partiality is modelled with `Option`. -/
def line_t.char_at (l : line_t) (idx : Nat) : Option Nat := l.text.get? idx

/-- `line_t::color_at`, likewise via `std::vector::at`. -/
def line_t.color_at (l : line_t) (idx : Nat) : Option Nat := l.colors.get? idx

/-- `line_t::append_line`: concatenate another line's text and colors. -/
def line_t.append_line (l other : line_t) : line_t :=
  { l with text := l.text ++ other.text, colors := l.colors ++ other.colors }

/-- The `line_t` representation invariant: the text and colors vectors have
equal length. -/
def lineInv (l : line_t) : Prop := l.text.length = l.colors.length

/-- `screen_data_t::cursor_t`. -/
structure cursor_t where
  x : Int
  y : Int
deriving DecidableEq

/-- `screen_data_t`: an ordered sequence of lines plus a cursor. -/
structure screen_data_t where
  line_datas : List line_t
  cursor : cursor_t
deriving DecidableEq

/-- The fields of `screen_t` used by the render path: the desired and actual
grids and the bookkeeping flags (the outputter and the stat snapshots are
outside the pure model). -/
structure screen_t where
  desired : screen_data_t
  actual : screen_data_t
  actual_left_prompt : wcstring
  last_right_prompt_width : Nat
  actual_width : Int
  need_clear_lines : Bool
  need_clear_screen : Bool
  actual_lines_before_reset : Nat

/-- Cells of a line, pairing each character with its color. -/
def cellList (l : line_t) : List (Nat × Nat) := l.text.zip l.colors

/-- Length of the matching prefix of two cell runs (same character and same
color), the `skip` of the diff pass. -/
def commonLen : List (Nat × Nat) → List (Nat × Nat) → Nat
  | a :: as, b :: bs => if a = b then commonLen as bs + 1 else 0
  | _, _ => 0

/-- Modelled from the spec (§4.5 step 3): the code units emitted for one row —
skip the matching cell run, write the remaining desired cells, and append a
clear-to-end-of-line marker (0) when the actual row is longer. -/
def emitRow (arow drow : line_t) : List Nat :=
  let skip := commonLen (cellList arow) (cellList drow)
  drow.text.drop skip ++ (if drow.text.length < arow.text.length then [0] else [])

/-- Modelled from the spec (§4.5): the byte stream of the diff-and-emit pass,
row by row over the union of the actual and desired row ranges. -/
def diffEmit (a d : screen_data_t) : List Nat :=
  (List.range (max a.line_datas.length d.line_datas.length)).foldr
    (fun i acc =>
      emitRow (a.line_datas.getD i line_t.empty) (d.line_datas.getD i line_t.empty) ++ acc)
    []

/-- Modelled from the spec: `s_write`.  The layout pass (abstracted as the
function argument `layout`, since only its output grid matters here) computes
the desired grid; the diff-and-emit pass produces a byte stream handed to the
writer; if the writer fails the render aborts with no change to `actual`
(§4.5 step 5, §7): the assignment `actual := desired` together with the
clearing of the dirty flags happens only at the end of a completed render.
The boolean result is `true` exactly on a completed render.
(`s_write`'s implementation is not in the sources at hand; only its
declaration is, `screen.h` lines 172–175.) -/
def s_write {ι : Type} (layout : ι → screen_data_t) (writeOk : List Nat → Bool)
    (s : screen_t) (inp : ι) : screen_t × Bool :=
  let d := layout inp
  let s1 := { s with desired := d }
  let bytes := diffEmit s1.actual d
  if writeOk bytes then
    ({ s1 with actual := d, need_clear_lines := false, need_clear_screen := false }, true)
  else (s1, false)

/-- A concrete grid used to exercise the render postconditions. -/
def exampleGrid : screen_data_t := ⟨[], ⟨0, 0⟩⟩

/-- A concrete screen state used to exercise the render postconditions. -/
def exampleScreen : screen_t :=
  ⟨exampleGrid, ⟨[line_t.empty], ⟨1, 1⟩⟩, [], 0, 80, true, true, 0⟩

/-- `prompt_layout_t` from screen.h. -/
structure prompt_layout_t where
  line_count : Nat
  max_line_width : Nat
  last_line_width : Nat
deriving DecidableEq

/-- `layout_cache_t::prompt_cache_max_size`. -/
def prompt_cache_max_size : Nat := 8

/-- An entry of the prompt LRU cache: a prompt string and its layout. -/
abbrev prompt_entry_t := wcstring × prompt_layout_t

/-- Remove from the LRU list the first entry whose key is `p`, returning it
together with the remaining list, or `none` when no entry matches. -/
def removeFirst : List prompt_entry_t → wcstring → Option (prompt_entry_t × List prompt_entry_t)
  | [], _ => none
  | e :: rest, p =>
    if e.1 = p then some (e, rest)
    else
      match removeFirst rest p with
      | some (f, rest') => some (f, e :: rest')
      | none => none

/-- Modelled from the spec: `layout_cache_t::find_prompt_layout` — linear scan
of the LRU list; on a hit, splice the entry to the front and return its
layout.  (Only the declaration is in the sources at hand, `screen.h` line
263.) -/
def find_prompt_layout (cache : List prompt_entry_t) (p : wcstring) :
    Option prompt_layout_t × List prompt_entry_t :=
  match removeFirst cache p with
  | some (e, rest) => (some e.2, e :: rest)
  | none => (none, cache)

/-- Modelled from the spec: `layout_cache_t::add_prompt_layout` — push the new
entry to the front; if the size exceeds 8, drop the last.  (Only the
declaration is in the sources at hand, `screen.h` line 266.) -/
def add_prompt_layout (cache : List prompt_entry_t) (p : wcstring)
    (layout : prompt_layout_t) : List prompt_entry_t :=
  let c := (p, layout) :: cache
  if prompt_cache_max_size < c.length then c.dropLast else c

/-- One call against the prompt cache. -/
inductive promptOp
  | add (p : wcstring) (layout : prompt_layout_t)
  | find (p : wcstring)

/-- Apply one prompt-cache call to the cache state, keeping the new state. -/
def applyPromptOp (cache : List prompt_entry_t) : promptOp → List prompt_entry_t
  | promptOp.add p layout => add_prompt_layout cache p layout
  | promptOp.find p => (find_prompt_layout cache p).2

/-- The cache state after a sequence of prompt-cache calls starting from the
empty cache. -/
def runPromptOps (ops : List promptOp) : List prompt_entry_t :=
  ops.foldl applyPromptOp []

/-- `redirection_spec_t::get_target_as_fd` from redirection.cpp.  The call to
`fish_wcstoi` (whose implementation is outside the sources at hand) is
abstracted by its outcome: `none` when it set `errno`, `some r` when it parsed
the value `r`.  The function rejects an errno as well as a negative parse. -/
def get_target_as_fd (wcstoiResult : Option Int) : Option Int :=
  match wcstoiResult with
  | none => none
  | some r => if r < 0 then none else some r

/-- One entry of `dup2_list_t::actions_`: a `dup2(src, target)` when
`target ≥ 0`, a `close(src)` when `target < 0`. -/
structure dup2_action_t where
  src : Int
  target : Int
deriving DecidableEq

/-- `dup2_list_t` from redirection.cpp: a sequence of dup2/close actions. -/
structure dup2_list_t where
  actions_ : List dup2_action_t
deriving DecidableEq

/-- The loop of `dup2_list_t::fd_for_target_fd`, walking the action list
backwards (the argument list is already reversed): a dup2 onto the cursor
replaces it by the source; a close of the cursor yields −1 and stops. -/
def fdWalk : List dup2_action_t → Int → Int
  | [], cursor => cursor
  | a :: rest, cursor =>
    if a.target = cursor then fdWalk rest a.src
    else if a.src = cursor ∧ a.target < 0 then -1
    else fdWalk rest cursor

/-- `dup2_list_t::fd_for_target_fd`: negative targets are returned unchanged
("Paranoia"); otherwise walk the action list backwards. -/
def fd_for_target_fd (l : dup2_list_t) (target : Int) : Int :=
  if target < 0 then target
  else fdWalk l.actions_.reverse target

/-! ### Order theory for the lexicographic comparison `wlt` -/

theorem wlt_nil_right (s : wcstring) : wlt s [] = false := by
  cases s <;> rfl

theorem wlt_cons_cons (a b : Nat) (as bs : List Nat) :
    wlt (a :: as) (b :: bs) =
      if a < b then true else if b < a then false else wlt as bs := rfl

theorem wlt_irrefl : ∀ s : wcstring, wlt s s = false
  | [] => rfl
  | a :: as => by
    rw [wlt_cons_cons, if_neg (Nat.lt_irrefl a), if_neg (Nat.lt_irrefl a)]
    exact wlt_irrefl as

theorem wlt_conn : ∀ a b : wcstring, wlt a b = true ∨ wlt b a = true ∨ a = b
  | [], [] => Or.inr (Or.inr rfl)
  | [], _ :: _ => Or.inl rfl
  | _ :: _, [] => Or.inr (Or.inl rfl)
  | a :: as, b :: bs => by
    rcases Nat.lt_trichotomy a b with h | h | h
    · left; rw [wlt_cons_cons, if_pos h]
    · subst h
      rcases wlt_conn as bs with h' | h' | h'
      · left
        rw [wlt_cons_cons, if_neg (Nat.lt_irrefl a), if_neg (Nat.lt_irrefl a)]
        exact h'
      · right; left
        rw [wlt_cons_cons, if_neg (Nat.lt_irrefl a), if_neg (Nat.lt_irrefl a)]
        exact h'
      · right; right; rw [h']
    · right; left; rw [wlt_cons_cons, if_pos h]

theorem wlt_trans :
    ∀ {a b c : wcstring}, wlt a b = true → wlt b c = true → wlt a c = true
  | _, _, [], _, h2 => by rw [wlt_nil_right] at h2; cases h2
  | _, [], _ :: _, h1, _ => by rw [wlt_nil_right] at h1; cases h1
  | [], _ :: _, _ :: _, _, _ => rfl
  | a :: as, b :: bs, c :: cs, h1, h2 => by
    rw [wlt_cons_cons] at h1 h2 ⊢
    rcases Nat.lt_trichotomy a b with hab | hab | hab
    · rcases Nat.lt_trichotomy b c with hbc | hbc | hbc
      · exact if_pos (Nat.lt_trans hab hbc)
      · subst hbc; exact if_pos hab
      · rw [if_neg (Nat.lt_asymm hbc), if_pos hbc] at h2; cases h2
    · subst hab
      rcases Nat.lt_trichotomy a c with hac | hac | hac
      · exact if_pos hac
      · subst hac
        rw [if_neg (Nat.lt_irrefl a), if_neg (Nat.lt_irrefl a)] at h1 h2 ⊢
        exact wlt_trans h1 h2
      · rw [if_neg (Nat.lt_asymm hac), if_pos hac] at h2; cases h2
    · rw [if_neg (Nat.lt_asymm hab), if_pos hab] at h1; cases h1

theorem wlt_asymm {a b : wcstring} (h : wlt a b = true) : wlt b a = false := by
  cases hba : wlt b a
  · rfl
  · have := wlt_trans h hba
    rw [wlt_irrefl] at this
    cases this

theorem wlt_ne {a b : wcstring} (h : wlt a b = true) : a ≠ b := by
  intro he; subst he; rw [wlt_irrefl] at h; cases h

theorem wlt_false_elim {s c : wcstring} (h : wlt s c = false) :
    wlt c s = true ∨ c = s := by
  rcases wlt_conn s c with h' | h' | h'
  · rw [h'] at h; cases h
  · exact Or.inl h'
  · exact Or.inr h'.symm

/-! ### Prefixes versus the lexicographic order -/

theorem isPrefixOf_nil_left (s : wcstring) : List.isPrefixOf [] s = true := by
  cases s <;> rfl

theorem isPrefixOf_cons_cons (a b : Nat) (as bs : List Nat) :
    List.isPrefixOf (a :: as) (b :: bs) = ((a == b) && List.isPrefixOf as bs) := rfl

theorem isPrefixOf_refl : ∀ s : wcstring, List.isPrefixOf s s = true
  | [] => rfl
  | a :: as => by
    rw [isPrefixOf_cons_cons, beq_self_eq_true]
    simp [isPrefixOf_refl as]

/-- A string is never lexicographically smaller than one of its prefixes. -/
theorem pref_wlt_false :
    ∀ {c s : wcstring}, c.isPrefixOf s = true → wlt s c = false
  | [], s, _ => wlt_nil_right s
  | _ :: _, [], h => by cases h
  | a :: cs, b :: ss, h => by
    rw [isPrefixOf_cons_cons, Bool.and_eq_true, beq_iff_eq] at h
    obtain ⟨he, hp⟩ := h
    subst he
    rw [wlt_cons_cons, if_neg (Nat.lt_irrefl a), if_neg (Nat.lt_irrefl a)]
    exact pref_wlt_false hp

/-- If `c` is a prefix of `s` but not of `d`, then everything above `c`
in the lexicographic order that `c` does not prefix is also above `s`. -/
theorem pref_escalate :
    ∀ {c s d : wcstring}, c.isPrefixOf s = true → c.isPrefixOf d = false →
      wlt c d = true → wlt s d = true
  | [], _, d, _, hcd, _ => by rw [isPrefixOf_nil_left] at hcd; cases hcd
  | _ :: _, _, [], _, _, hlt => by rw [wlt_nil_right] at hlt; cases hlt
  | a :: cs, s, b :: ds, hcs, hcd, hlt => by
    cases s with
    | nil => cases hcs
    | cons a' ss =>
      rw [isPrefixOf_cons_cons, Bool.and_eq_true, beq_iff_eq] at hcs
      obtain ⟨he, hp⟩ := hcs
      subst he
      rw [wlt_cons_cons] at hlt ⊢
      rcases Nat.lt_trichotomy a b with hab | hab | hab
      · exact if_pos hab
      · subst hab
        rw [if_neg (Nat.lt_irrefl a), if_neg (Nat.lt_irrefl a)] at hlt ⊢
        rw [isPrefixOf_cons_cons, beq_self_eq_true, Bool.true_and] at hcd
        exact pref_escalate hp hcd hlt
      · rw [if_neg (Nat.lt_asymm hab), if_pos hab] at hlt; cases hlt

/-! ### The upper bound on a sorted cache -/

theorem upperBound_le : ∀ (l : List wcstring) (s : wcstring), upperBound l s ≤ l.length
  | [], _ => Nat.le_refl 0
  | x :: xs, s => by
    rw [upperBound]
    split
    · exact Nat.zero_le _
    · exact Nat.succ_le_succ (upperBound_le xs s)

theorem getD_mem_of_lt {l : List wcstring} {n : Nat} (h : n < l.length) :
    l.getD n [] ∈ l := by
  rw [List.getD_eq_getElem _ _ h]
  exact List.getElem_mem h

/-- On a sorted cache, if `c` is an element with `c ≤ s` and every element
above `c` is also above `s`, then the upper bound of `s` is positive and the
element just before it is exactly `c`. -/
theorem upperBound_pred_eq :
    ∀ (l : List wcstring) (c s : wcstring), SortedLt l → c ∈ l → wlt s c = false →
      (∀ d ∈ l, wlt c d = true → wlt s d = true) →
      0 < upperBound l s ∧ l.getD (upperBound l s - 1) [] = c := by
  intro l
  induction l with
  | nil => intro c s _ hc; cases hc
  | cons x xs ih =>
    intro c s hs hc hle hup
    rw [SortedLt, List.pairwise_cons] at hs
    obtain ⟨hx, hxs⟩ := hs
    rcases List.mem_cons.mp hc with hcx | hcxs
    · subst hcx
      have h0 : upperBound xs s = 0 := by
        cases xs with
        | nil => rfl
        | cons y ys =>
          have hsy : wlt s y = true := hup y (by simp) (hx y (by simp))
          simp [upperBound, hsy]
      simp [upperBound, hle, h0]
    · have hxc : wlt x c = true := hx c hcxs
      have hsx : wlt s x = false := by
        cases hsx' : wlt s x
        · rfl
        · have hsc := wlt_trans hsx' hxc
          rw [hle] at hsc
          cases hsc
      have hup' : ∀ d ∈ xs, wlt c d = true → wlt s d = true := fun d hd =>
        hup d (List.mem_cons_of_mem x hd)
      obtain ⟨hpos, hget⟩ := ih c s hxs hcxs hle hup'
      refine ⟨by simp [upperBound, hsx], ?_⟩
      rw [upperBound]
      simp only [hsx, Bool.false_eq_true, if_false, Nat.add_sub_cancel]
      cases hub : upperBound xs s with
      | zero => rw [hub] at hpos; cases hpos
      | succ k =>
        rw [hub] at hget
        simpa using hget

/-- If some cache entry is a prefix of `s`, a sorted prefix-free cache finds
it: `find_escape_code` returns that entry's length. -/
theorem find_escape_code_of_pref {l : List wcstring} {c s : wcstring}
    (hs : SortedLt l) (hpf : PrefixFree l) (hc : c ∈ l)
    (hcs : c.isPrefixOf s = true) : find_escape_code l s = c.length := by
  have hle : wlt s c = false := pref_wlt_false hcs
  have hup : ∀ d ∈ l, wlt c d = true → wlt s d = true := by
    intro d hd hlt
    exact pref_escalate hcs (hpf c hc d hd (wlt_ne hlt)) hlt
  obtain ⟨hpos, hget⟩ := upperBound_pred_eq l c s hs hc hle hup
  have hne : upperBound l s ≠ 0 := Nat.pos_iff_ne_zero.mp hpos
  simp only [find_escape_code]
  rw [if_neg hne, hget, if_pos hcs]

/-- If no cache entry is a prefix of `s`, `find_escape_code` returns 0. -/
theorem find_escape_code_of_none {l : List wcstring} {s : wcstring}
    (h : ∀ c ∈ l, c.isPrefixOf s = false) : find_escape_code l s = 0 := by
  by_cases h0 : upperBound l s = 0
  · simp only [find_escape_code]
    rw [if_pos h0]
  · have hlt : upperBound l s - 1 < l.length := by
      have := upperBound_le l s
      omega
    have hp := h _ (getD_mem_of_lt hlt)
    simp only [find_escape_code]
    rw [if_neg h0, if_neg (by rw [hp]; exact Bool.false_ne_true)]

/-- Two prefixes of the same string are comparable. -/
theorem pref_comparable :
    ∀ {c d s : wcstring}, c.isPrefixOf s = true → d.isPrefixOf s = true →
      c.isPrefixOf d = true ∨ d.isPrefixOf c = true
  | [], d, _, _, _ => Or.inl (isPrefixOf_nil_left d)
  | _ :: _, [], _, _, _ => Or.inr (isPrefixOf_nil_left _)
  | a :: cs, b :: ds, s, hc, hd => by
    cases s with
    | nil => cases hc
    | cons e ss =>
      rw [isPrefixOf_cons_cons, Bool.and_eq_true, beq_iff_eq] at hc hd
      obtain ⟨he1, hc'⟩ := hc
      obtain ⟨he2, hd'⟩ := hd
      subst he1
      subst he2
      rcases pref_comparable hc' hd' with h | h
      · left
        rw [isPrefixOf_cons_cons, beq_self_eq_true, Bool.true_and]
        exact h
      · right
        rw [isPrefixOf_cons_cons, beq_self_eq_true, Bool.true_and]
        exact h

/-- In a prefix-free cache, at most one entry is a prefix of any given `s`. -/
theorem pref_unique {l : List wcstring} (hpf : PrefixFree l) {c d s : wcstring}
    (hc : c ∈ l) (hd : d ∈ l) (h1 : c.isPrefixOf s = true)
    (h2 : d.isPrefixOf s = true) : c = d := by
  by_contra hne
  rcases pref_comparable h1 h2 with h | h
  · rw [hpf c hc d hd hne] at h
    cases h
  · rw [hpf d hd c hc (Ne.symm hne)] at h
    cases h

/-! ### `add_escape_code`: membership, no-op on present entries, sortedness -/

theorem mem_insertAt :
    ∀ (n : Nat) (s : wcstring) (l : List wcstring) (y : wcstring),
      y ∈ insertAt n s l → y = s ∨ y ∈ l
  | 0, s, l, y, h => by
    rw [insertAt] at h
    exact List.mem_cons.mp h
  | _ + 1, s, [], y, h => by
    rw [insertAt] at h
    simp at h
    exact Or.inl h
  | n + 1, s, x :: xs, y, h => by
    rw [insertAt] at h
    rcases List.mem_cons.mp h with h' | h'
    · exact Or.inr (h' ▸ List.mem_cons_self x xs)
    · rcases mem_insertAt n s xs y h' with h'' | h''
      · exact Or.inl h''
      · exact Or.inr (List.mem_cons_of_mem x h'')

/-- Adding an entry that is already in a sorted cache is a no-op. -/
theorem add_escape_code_of_mem {l : List wcstring} {s : wcstring}
    (hs : SortedLt l) (h : s ∈ l) : add_escape_code l s = l := by
  obtain ⟨hpos, hget⟩ :=
    upperBound_pred_eq l s s hs h (wlt_irrefl s) (fun d _ hd => hd)
  have hne : upperBound l s ≠ 0 := Nat.pos_iff_ne_zero.mp hpos
  simp only [add_escape_code]
  rw [if_neg]
  intro hor
  rcases hor with h0 | hgd
  · exact hne h0
  · exact hgd hget

/-- Adding an absent entry inserts it at the upper-bound position. -/
theorem add_escape_code_of_not_mem {l : List wcstring} {s : wcstring}
    (h : s ∉ l) : add_escape_code l s = insertAt (upperBound l s) s l := by
  by_cases h0 : upperBound l s = 0
  · simp only [add_escape_code]
    rw [if_pos (Or.inl h0)]
  · have hlt : upperBound l s - 1 < l.length := by
      have := upperBound_le l s
      omega
    have hmem := getD_mem_of_lt hlt
    have hgd : l.getD (upperBound l s - 1) [] ≠ s := by
      intro he
      exact h (he ▸ hmem)
    simp only [add_escape_code]
    rw [if_pos (Or.inr hgd)]

theorem mem_add_escape_code {l : List wcstring} {s x : wcstring}
    (h : x ∈ add_escape_code l s) : x = s ∨ x ∈ l := by
  simp only [add_escape_code] at h
  split at h
  · exact mem_insertAt _ _ _ _ h
  · exact Or.inr h

theorem sortedLt_insertAt :
    ∀ (l : List wcstring) (s : wcstring), SortedLt l → s ∉ l →
      SortedLt (insertAt (upperBound l s) s l)
  | [], s, _, _ => by
    rw [upperBound, insertAt]
    exact List.pairwise_cons.mpr ⟨by simp, List.Pairwise.nil⟩
  | x :: xs, s, hs, hnm => by
    rw [SortedLt, List.pairwise_cons] at hs
    obtain ⟨hx, hxs⟩ := hs
    cases hsx : wlt s x with
    | true =>
      rw [upperBound]
      simp only [hsx, if_true]
      rw [insertAt, SortedLt, List.pairwise_cons]
      refine ⟨?_, List.pairwise_cons.mpr ⟨hx, hxs⟩⟩
      intro d hd
      rcases List.mem_cons.mp hd with h' | h'
      · exact h' ▸ hsx
      · exact wlt_trans hsx (hx d h')
    | false =>
      have hxlt : wlt x s = true := by
        rcases wlt_false_elim hsx with h' | h'
        · exact h'
        · exact absurd (h' ▸ List.mem_cons_self x xs) hnm
      rw [upperBound]
      simp only [hsx, Bool.false_eq_true, if_false]
      rw [insertAt, SortedLt, List.pairwise_cons]
      constructor
      · intro d hd
        rcases mem_insertAt _ _ _ _ hd with h' | h'
        · exact h' ▸ hxlt
        · exact hx d h'
      · exact sortedLt_insertAt xs s hxs (fun h' => hnm (List.mem_cons_of_mem x h'))

/-- One `add_escape_code` call preserves sortedness. -/
theorem sortedLt_add_escape_code {l : List wcstring} (s : wcstring)
    (hs : SortedLt l) : SortedLt (add_escape_code l s) := by
  by_cases h : s ∈ l
  · rw [add_escape_code_of_mem hs h]
    exact hs
  · rw [add_escape_code_of_not_mem h]
    exact sortedLt_insertAt l s hs h

theorem sortedLt_foldl_add :
    ∀ (ss : List wcstring) (acc : List wcstring), SortedLt acc →
      SortedLt (ss.foldl add_escape_code acc)
  | [], _, h => h
  | s :: ss, acc, h =>
    sortedLt_foldl_add ss (add_escape_code acc s) (sortedLt_add_escape_code s h)

theorem mem_foldl_add :
    ∀ (ss : List wcstring) (acc : List wcstring) (x : wcstring),
      x ∈ ss.foldl add_escape_code acc → x ∈ acc ∨ x ∈ ss
  | [], _, _, h => Or.inl h
  | s :: ss, acc, x, h => by
    rcases mem_foldl_add ss (add_escape_code acc s) x h with h' | h'
    · rcases mem_add_escape_code h' with h'' | h''
      · exact Or.inr (h'' ▸ List.mem_cons_self s ss)
      · exact Or.inl h''
    · exact Or.inr (List.mem_cons_of_mem s h')

theorem count_insertAt :
    ∀ (n : Nat) (s : wcstring) (l : List wcstring),
      (insertAt n s l).count s = l.count s + 1
  | 0, s, l => by rw [insertAt, List.count_cons_self]
  | _ + 1, s, [] => by simp [insertAt]
  | n + 1, s, x :: xs => by
    rw [insertAt, List.count_cons, List.count_cons, count_insertAt n s xs]
    omega

/-! ### Claim C1 -/

/-- C1: For every escape cache that is sorted and prefix-free, and every string
`s`: `find_escape_code(s)` returns the length of the unique cache entry that is
a prefix of `s` when such an entry exists (the entry being unique by
prefix-freeness), and 0 when no cache entry is a prefix of `s`. -/
theorem c1_find_escape_code_correct (l : List wcstring) (s : wcstring)
    (hs : SortedLt l) (hpf : PrefixFree l) :
    (∀ c ∈ l, c.isPrefixOf s = true → find_escape_code l s = c.length) ∧
    (∀ c ∈ l, ∀ d ∈ l, c.isPrefixOf s = true → d.isPrefixOf s = true → c = d) ∧
    ((∀ c ∈ l, c.isPrefixOf s = false) → find_escape_code l s = 0) :=
  ⟨fun _ hc hcs => find_escape_code_of_pref hs hpf hc hcs,
   fun _ hc _ hd h1 h2 => pref_unique hpf hc hd h1 h2,
   fun h => find_escape_code_of_none h⟩

theorem c1_find_escape_code_correct_witness :
    (∀ c ∈ ([[97], [98, 99]] : List wcstring),
      c.isPrefixOf [98, 99, 100] = true →
        find_escape_code [[97], [98, 99]] [98, 99, 100] = c.length) ∧
    (∀ c ∈ ([[97], [98, 99]] : List wcstring),
      ∀ d ∈ ([[97], [98, 99]] : List wcstring),
        c.isPrefixOf [98, 99, 100] = true → d.isPrefixOf [98, 99, 100] = true →
          c = d) ∧
    ((∀ c ∈ ([[97], [98, 99]] : List wcstring),
      c.isPrefixOf [98, 99, 100] = false) →
        find_escape_code [[97], [98, 99]] [98, 99, 100] = 0) :=
  c1_find_escape_code_correct [[97], [98, 99]] [98, 99, 100] (by decide) (by decide)

/-! ### Claim C2 -/

/-- C2 counterexample: after the call sequence `add_escape_code [97]`,
`add_escape_code [97, 98]` from the empty cache, the cache is
`[[97], [97, 98]]`, which is not prefix-free: the claim that the cache remains
both sorted and prefix-free across any sequence of calls is false. -/
theorem c2_counterexample :
    ¬ (SortedLt (addEscapeCodes [[97], [97, 98]]) ∧
       PrefixFree (addEscapeCodes [[97], [97, 98]])) := by decide

/-- C2 (amended): across any sequence of `add_escape_code` calls starting from
the empty cache, `esc_cache` remains lexicographically sorted (strictly, hence
duplicate-free); it is moreover prefix-free provided no added string is a
prefix of another distinct added string — the code itself does not enforce
prefix-freeness. -/
theorem c2_add_escape_code_invariant (ss : List wcstring) :
    SortedLt (addEscapeCodes ss) ∧
    ((∀ a ∈ ss, ∀ b ∈ ss, a ≠ b → a.isPrefixOf b = false) →
      PrefixFree (addEscapeCodes ss)) := by
  constructor
  · exact sortedLt_foldl_add ss [] List.Pairwise.nil
  · intro h a ha b hb hne
    rcases mem_foldl_add ss [] a ha with h' | h'
    · cases h'
    · rcases mem_foldl_add ss [] b hb with h'' | h''
      · cases h''
      · exact h a h' b h'' hne

theorem c2_add_escape_code_invariant_witness :
    PrefixFree (addEscapeCodes [[98], [97, 99]]) :=
  (c2_add_escape_code_invariant [[98], [97, 99]]).2 (by decide)

/-! ### Claim C6 -/

/-- C6: `add_escape_code` is idempotent on present entries: for a sorted cache
already containing `s`, the call leaves the cache unchanged; for an absent
`s`, it inserts `s` exactly once, at its lexicographic upper-bound position. -/
theorem c6_add_escape_code_insert (l : List wcstring) (s : wcstring)
    (hs : SortedLt l) :
    (s ∈ l → add_escape_code l s = l) ∧
    (s ∉ l → add_escape_code l s = insertAt (upperBound l s) s l ∧
      (add_escape_code l s).count s = 1) := by
  refine ⟨fun h => add_escape_code_of_mem hs h, fun h => ?_⟩
  refine ⟨add_escape_code_of_not_mem h, ?_⟩
  rw [add_escape_code_of_not_mem h, count_insertAt,
    List.count_eq_zero_of_not_mem h]

theorem c6_add_escape_code_insert_witness :
    (([98] : wcstring) ∈ ([[97], [99]] : List wcstring) →
      add_escape_code [[97], [99]] [98] = [[97], [99]]) ∧
    (([98] : wcstring) ∉ ([[97], [99]] : List wcstring) →
      add_escape_code [[97], [99]] [98] =
        insertAt (upperBound [[97], [99]] [98]) [98] [[97], [99]] ∧
      (add_escape_code [[97], [99]] [98]).count [98] = 1) :=
  c6_add_escape_code_insert [[97], [99]] [98] (by decide)

/-! ### Claim C8: the `line_t` invariant -/

theorem lineInv_appendChar (l : line_t) (c color : Nat) (h : lineInv l) :
    lineInv (l.appendChar c color) := by
  unfold lineInv line_t.appendChar at *
  simp [h]

theorem lineInv_appendStr :
    ∀ (s : List Nat) (l : line_t) (color : Nat),
      lineInv l → lineInv (l.appendStr s color)
  | [], _, _, h => h
  | c :: cs, l, color, h =>
    lineInv_appendStr cs (l.appendChar c color) color (lineInv_appendChar l c color h)

theorem get?_isSome_of_lt {l : List Nat} {i : Nat} (h : i < l.length) :
    (l.get? i).isSome = true := by
  cases hg : l.get? i with
  | none =>
    rw [List.get?_eq_none] at hg
    omega
  | some _ => rfl

/-- C8: every `line_t` operation preserves the invariant that the text vector
and the colors vector have equal length: a fresh `line_t` satisfies it, and
`clear`, single-character append, string append and `append_line` preserve it;
consequently `char_at i` and `color_at i` are both in range for `i < size`. -/
theorem c8_line_t_invariant :
    lineInv line_t.empty ∧
    (∀ l : line_t, lineInv l → lineInv l.clear) ∧
    (∀ (l : line_t) (c color : Nat), lineInv l → lineInv (l.appendChar c color)) ∧
    (∀ (l : line_t) (s : List Nat) (color : Nat),
      lineInv l → lineInv (l.appendStr s color)) ∧
    (∀ l other : line_t, lineInv l → lineInv other → lineInv (l.append_line other)) ∧
    (∀ (l : line_t) (i : Nat), lineInv l → i < l.size →
      (l.char_at i).isSome = true ∧ (l.color_at i).isSome = true) := by
  refine ⟨rfl, fun l _ => rfl, lineInv_appendChar,
    fun l s color h => lineInv_appendStr s l color h, ?_, ?_⟩
  · intro l other h1 h2
    unfold lineInv line_t.append_line at *
    simp [h1, h2]
  · intro l i h hi
    unfold lineInv at h
    unfold line_t.size at hi
    constructor
    · exact get?_isSome_of_lt hi
    · exact get?_isSome_of_lt (by omega)

theorem c8_line_t_invariant_witness :
    lineInv line_t.empty ∧
    (lineInv line_t.empty → lineInv line_t.empty.clear) ∧
    (lineInv line_t.empty → lineInv (line_t.empty.appendChar 97 3)) ∧
    (lineInv line_t.empty → lineInv (line_t.empty.appendStr [97, 98] 3)) ∧
    (lineInv line_t.empty → lineInv line_t.empty →
      lineInv (line_t.empty.append_line line_t.empty)) ∧
    (lineInv (line_t.empty.appendChar 97 3) → 0 < (line_t.empty.appendChar 97 3).size →
      ((line_t.empty.appendChar 97 3).char_at 0).isSome = true ∧
      ((line_t.empty.appendChar 97 3).color_at 0).isSome = true) :=
  ⟨c8_line_t_invariant.1,
   c8_line_t_invariant.2.1 line_t.empty,
   c8_line_t_invariant.2.2.1 line_t.empty 97 3,
   c8_line_t_invariant.2.2.2.1 line_t.empty [97, 98] 3,
   c8_line_t_invariant.2.2.2.2.1 line_t.empty line_t.empty,
   c8_line_t_invariant.2.2.2.2.2 (line_t.empty.appendChar 97 3) 0⟩

/-! ### Claim C9 -/

/-- C9: `get_target_as_fd` never yields a negative file descriptor: it returns
`none` exactly when `fish_wcstoi` failed (errno set, modelled by a `none`
outcome) or parsed a negative value, and otherwise returns the parsed
non-negative integer. -/
theorem c9_get_target_as_fd (o : Option Int) :
    (∀ fd : Int, get_target_as_fd o = some fd → 0 ≤ fd) ∧
    (get_target_as_fd o = none ↔ o = none ∨ ∃ r : Int, o = some r ∧ r < 0) ∧
    (∀ r : Int, o = some r → 0 ≤ r → get_target_as_fd o = some r) := by
  cases o with
  | none => simp [get_target_as_fd]
  | some r =>
    by_cases hr : r < 0
    · simp only [get_target_as_fd, if_pos hr]
      refine ⟨by simp, ?_, ?_⟩
      · simp
        exact hr
      · intro r' hr' _
        cases hr'
        omega
    · simp only [get_target_as_fd, if_neg hr]
      refine ⟨?_, ?_, ?_⟩
      · intro fd h
        cases h
        omega
      · simp
        omega
      · intro r' hr' _
        cases hr'
        rfl

theorem c9_get_target_as_fd_witness :
    (∀ fd : Int, get_target_as_fd (some 3) = some fd → 0 ≤ fd) ∧
    (get_target_as_fd (some 3) = none ↔ (some 3 : Option Int) = none ∨
      ∃ r : Int, (some 3 : Option Int) = some r ∧ r < 0) ∧
    (∀ r : Int, (some 3 : Option Int) = some r → 0 ≤ r →
      get_target_as_fd (some 3) = some r) :=
  c9_get_target_as_fd (some 3)

/-! ### Claim C10 -/

/-- C10: for every `dup2_list_t` and every negative target,
`fd_for_target_fd` returns the target unchanged, whatever the action list. -/
theorem c10_fd_for_target_fd_neg (l : dup2_list_t) (target : Int)
    (h : target < 0) : fd_for_target_fd l target = target := by
  unfold fd_for_target_fd
  rw [if_pos h]

theorem c10_fd_for_target_fd_neg_witness :
    fd_for_target_fd ⟨[⟨5, 1⟩, ⟨4, -1⟩]⟩ (-2) = -2 :=
  c10_fd_for_target_fd_neg ⟨[⟨5, 1⟩, ⟨4, -1⟩]⟩ (-2) (by decide)

/-! ### Claim C5: the prompt LRU cache -/

theorem removeFirst_spec :
    ∀ (c : List prompt_entry_t) (p : wcstring) (e : prompt_entry_t)
      (rest : List prompt_entry_t),
      removeFirst c p = some (e, rest) → e.1 = p ∧ rest.length + 1 = c.length
  | [], _, _, _, h => by cases h
  | f :: fs, p, e, rest, h => by
    rw [removeFirst] at h
    by_cases hf : f.1 = p
    · rw [if_pos hf] at h
      cases h
      exact ⟨hf, rfl⟩
    · rw [if_neg hf] at h
      cases hrf : removeFirst fs p with
      | none =>
        rw [hrf] at h
        cases h
      | some gr =>
        obtain ⟨g, rest'⟩ := gr
        obtain ⟨h1, h2⟩ := removeFirst_spec fs p g rest' hrf
        rw [hrf] at h
        dsimp only at h
        cases h
        refine ⟨h1, ?_⟩
        simp only [List.length_cons]
        omega

theorem find_prompt_layout_length (c : List prompt_entry_t) (p : wcstring) :
    (find_prompt_layout c p).2.length = c.length := by
  unfold find_prompt_layout
  cases hr : removeFirst c p with
  | none => rfl
  | some er =>
    obtain ⟨e, rest⟩ := er
    obtain ⟨-, h2⟩ := removeFirst_spec c p e rest hr
    simpa using h2

theorem find_prompt_layout_hit (c : List prompt_entry_t) (p : wcstring)
    (lay : prompt_layout_t) (h : (find_prompt_layout c p).1 = some lay) :
    (find_prompt_layout c p).2.head? = some (p, lay) := by
  cases hr : removeFirst c p with
  | none =>
    unfold find_prompt_layout at h
    rw [hr] at h
    cases h
  | some er =>
    obtain ⟨e, rest⟩ := er
    obtain ⟨h1, -⟩ := removeFirst_spec c p e rest hr
    unfold find_prompt_layout at h ⊢
    rw [hr] at h ⊢
    dsimp only at h ⊢
    cases h
    rw [List.head?, ← h1]

theorem applyPromptOp_length {c : List prompt_entry_t}
    (h : c.length ≤ prompt_cache_max_size) (op : promptOp) :
    (applyPromptOp c op).length ≤ prompt_cache_max_size := by
  cases op with
  | add p lay =>
    simp only [applyPromptOp, add_prompt_layout]
    split
    · rw [List.length_dropLast]
      simp only [List.length_cons]
      omega
    · rename_i hlen
      simp only [List.length_cons] at hlen ⊢
      omega
  | find p =>
    simp only [applyPromptOp]
    rw [find_prompt_layout_length]
    exact h

theorem foldl_applyPromptOp_length :
    ∀ (ops : List promptOp) (c : List prompt_entry_t),
      c.length ≤ prompt_cache_max_size →
      (ops.foldl applyPromptOp c).length ≤ prompt_cache_max_size
  | [], _, h => h
  | op :: ops, _, h =>
    foldl_applyPromptOp_length ops _ (applyPromptOp_length h op)

/-- C5: over any sequence of `add_prompt_layout` and `find_prompt_layout`
calls from the empty cache, the prompt cache holds at most 8 entries, and
immediately after a `find_prompt_layout` hit the found entry is at the front
(index 0) of the LRU list. -/
theorem c5_prompt_cache_invariant (ops : List promptOp) :
    (runPromptOps ops).length ≤ prompt_cache_max_size ∧
    (∀ (p : wcstring) (lay : prompt_layout_t),
      (find_prompt_layout (runPromptOps ops) p).1 = some lay →
      (find_prompt_layout (runPromptOps ops) p).2.head? = some (p, lay)) :=
  ⟨foldl_applyPromptOp_length ops [] (by simp [prompt_cache_max_size]),
   fun p lay h => find_prompt_layout_hit _ p lay h⟩

theorem c5_prompt_cache_invariant_witness :
    (runPromptOps [promptOp.add [97] ⟨1, 2, 3⟩]).length ≤ prompt_cache_max_size ∧
    ((find_prompt_layout (runPromptOps [promptOp.add [97] ⟨1, 2, 3⟩]) [97]).1 =
        some ⟨1, 2, 3⟩ →
      (find_prompt_layout (runPromptOps [promptOp.add [97] ⟨1, 2, 3⟩]) [97]).2.head? =
        some ([97], ⟨1, 2, 3⟩)) :=
  ⟨(c5_prompt_cache_invariant [promptOp.add [97] ⟨1, 2, 3⟩]).1,
   fun h => (c5_prompt_cache_invariant [promptOp.add [97] ⟨1, 2, 3⟩]).2 [97] ⟨1, 2, 3⟩ h⟩

/-! ### Claims C3 and C7: the render postcondition -/

/-- C3: after a successful `s_write`, the screen's actual grid equals the
desired grid the layout pass computed during that call (which is also the
stored `desired`), and the tracked actual cursor equals the cursor that was
written. -/
theorem c3_s_write_actual {ι : Type} (layout : ι → screen_data_t)
    (writeOk : List Nat → Bool) (s : screen_t) (inp : ι)
    (h : (s_write layout writeOk s inp).2 = true) :
    (s_write layout writeOk s inp).1.actual = layout inp ∧
    (s_write layout writeOk s inp).1.actual = (s_write layout writeOk s inp).1.desired ∧
    (s_write layout writeOk s inp).1.actual.cursor = (layout inp).cursor := by
  simp only [s_write] at h ⊢
  split at h
  · rename_i hc
    rw [if_pos hc]
    exact ⟨rfl, rfl, rfl⟩
  · exact Bool.noConfusion h

theorem c3_s_write_actual_witness :
    (s_write (fun _ : Unit => exampleGrid) (fun _ => true) exampleScreen ()).1.actual =
      exampleGrid ∧
    (s_write (fun _ : Unit => exampleGrid) (fun _ => true) exampleScreen ()).1.actual =
      (s_write (fun _ : Unit => exampleGrid) (fun _ => true) exampleScreen ()).1.desired ∧
    (s_write (fun _ : Unit => exampleGrid) (fun _ => true) exampleScreen ()).1.actual.cursor =
      exampleGrid.cursor :=
  c3_s_write_actual (fun _ : Unit => exampleGrid) (fun _ => true) exampleScreen () rfl

/-- C7: renders are atomic for the actual grid: an aborted render (in
particular a writer failure) leaves the screen's actual grid unchanged from
its pre-render value, since `actual := desired` happens only at the end of a
completed render. -/
theorem c7_s_write_abort {ι : Type} (layout : ι → screen_data_t)
    (writeOk : List Nat → Bool) (s : screen_t) (inp : ι)
    (h : (s_write layout writeOk s inp).2 = false) :
    (s_write layout writeOk s inp).1.actual = s.actual := by
  simp only [s_write] at h ⊢
  split at h
  · exact Bool.noConfusion h
  · rename_i hc
    rw [if_neg hc]

theorem c7_s_write_abort_witness :
    (s_write (fun _ : Unit => exampleGrid) (fun _ => false) exampleScreen ()).1.actual =
      exampleScreen.actual :=
  c7_s_write_abort (fun _ : Unit => exampleGrid) (fun _ => false) exampleScreen () rfl

/-! ### Prefix and take lemmas for escape recognition -/

theorem pref_length_le :
    ∀ {c s : wcstring}, c.isPrefixOf s = true → c.length ≤ s.length
  | [], _, _ => Nat.zero_le _
  | _ :: _, [], h => by cases h
  | a :: cs, b :: ss, h => by
    rw [isPrefixOf_cons_cons, Bool.and_eq_true] at h
    simpa using Nat.succ_le_succ (pref_length_le h.2)

theorem prefEqTake :
    ∀ {c s : wcstring}, c.isPrefixOf s = true → s.take c.length = c
  | [], s, _ => by simp
  | _ :: _, [], h => by cases h
  | a :: cs, b :: ss, h => by
    rw [isPrefixOf_cons_cons, Bool.and_eq_true, beq_iff_eq] at h
    obtain ⟨he, hp⟩ := h
    subst he
    simp only [List.length_cons, List.take_succ_cons]
    rw [prefEqTake hp]

theorem take_isPref :
    ∀ (n : Nat) (s : wcstring), (s.take n).isPrefixOf s = true
  | _, [] => by simp [isPrefixOf_nil_left]
  | 0, _ :: _ => by simp [isPrefixOf_nil_left]
  | n + 1, b :: ss => by
    rw [List.take_succ_cons, isPrefixOf_cons_cons, beq_self_eq_true, Bool.true_and]
    exact take_isPref n ss

/-! ### CSI, OSC, two-byte and capability recognizers: basic facts -/

theorem csiTail_le : ∀ {u : List Nat} {k : Nat}, csiTail u = some k → k ≤ u.length
  | [], _, h => by cases h
  | b :: rest, k, h => by
    rw [csiTail] at h
    by_cases h1 : 0x20 ≤ b ∧ b ≤ 0x3F
    · rw [if_pos h1] at h
      cases hc : csiTail rest with
      | none => rw [hc] at h; cases h
      | some m =>
        rw [hc] at h
        simp only [Option.map, Option.some.injEq] at h
        have := csiTail_le hc
        simp only [List.length_cons]
        omega
    · rw [if_neg h1] at h
      by_cases h2 : 0x40 ≤ b ∧ b ≤ 0x7E
      · rw [if_pos h2] at h
        cases h
        simp
      · rw [if_neg h2] at h
        cases h

theorem csiTail_mono :
    ∀ {u v : List Nat}, csiTail u = some u.length → u.isPrefixOf v = true →
      csiTail v = some u.length
  | [], _, h, _ => by cases h
  | b :: u', v, h, hp => by
    cases v with
    | nil => cases hp
    | cons c v' =>
      rw [isPrefixOf_cons_cons, Bool.and_eq_true, beq_iff_eq] at hp
      obtain ⟨he, hp'⟩ := hp
      subst he
      rw [csiTail] at h ⊢
      by_cases h1 : 0x20 ≤ b ∧ b ≤ 0x3F
      · rw [if_pos h1] at h ⊢
        cases hc : csiTail u' with
        | none => rw [hc] at h; cases h
        | some m =>
          rw [hc] at h
          simp only [Option.map, Option.some.injEq, List.length_cons] at h
          have hm : m = u'.length := by omega
          subst hm
          rw [csiTail_mono hc hp']
          simp [List.length_cons]
      · rw [if_neg h1] at h ⊢
        by_cases h2 : 0x40 ≤ b ∧ b ≤ 0x7E
        · rw [if_pos h2] at h ⊢
          exact h
        · rw [if_neg h2] at h
          cases h

theorem csiTail_take :
    ∀ {u : List Nat} {k : Nat}, csiTail u = some k →
      csiTail (u.take k) = some k ∧ (u.take k).length = k
  | [], _, h => by cases h
  | b :: u', k, h => by
    rw [csiTail] at h
    by_cases h1 : 0x20 ≤ b ∧ b ≤ 0x3F
    · rw [if_pos h1] at h
      cases hc : csiTail u' with
      | none => rw [hc] at h; cases h
      | some m =>
        rw [hc] at h
        simp only [Option.map, Option.some.injEq] at h
        subst h
        obtain ⟨ht, hl⟩ := csiTail_take hc
        rw [List.take_succ_cons]
        constructor
        · rw [csiTail, if_pos h1, ht]
          rfl
        · simp [hl]
    · rw [if_neg h1] at h
      by_cases h2 : 0x40 ≤ b ∧ b ≤ 0x7E
      · rw [if_pos h2] at h
        cases h
        constructor
        · rw [List.take_succ_cons, List.take_zero, csiTail, if_neg h1, if_pos h2]
        · rfl
      · rw [if_neg h2] at h
        cases h

theorem oscTail_pos : ∀ {u : List Nat} {k : Nat}, oscTail u = some k → 1 ≤ k
  | [], _, h => by cases h
  | b :: rest, k, h => by
    rw [oscTail] at h
    by_cases h1 : b = 7
    · rw [if_pos h1] at h
      cases h
      omega
    · rw [if_neg h1] at h
      by_cases h2 : b = 27 ∧ rest.head? = some 92
      · rw [if_pos h2] at h
        cases h
        omega
      · rw [if_neg h2] at h
        cases hc : oscTail rest with
        | none => rw [hc] at h; cases h
        | some m =>
          rw [hc] at h
          simp only [Option.map, Option.some.injEq] at h
          omega

theorem oscTail_le : ∀ {u : List Nat} {k : Nat}, oscTail u = some k → k ≤ u.length
  | [], _, h => by cases h
  | b :: rest, k, h => by
    rw [oscTail] at h
    by_cases h1 : b = 7
    · rw [if_pos h1] at h
      cases h
      simp
    · rw [if_neg h1] at h
      by_cases h2 : b = 27 ∧ rest.head? = some 92
      · rw [if_pos h2] at h
        cases h
        obtain ⟨-, hh⟩ := h2
        cases rest with
        | nil => cases hh
        | cons r rest' => simp
      · rw [if_neg h2] at h
        cases hc : oscTail rest with
        | none => rw [hc] at h; cases h
        | some m =>
          rw [hc] at h
          simp only [Option.map, Option.some.injEq] at h
          have := oscTail_le hc
          simp only [List.length_cons]
          omega

theorem oscTail_mono :
    ∀ {u v : List Nat}, oscTail u = some u.length → u.isPrefixOf v = true →
      oscTail v = some u.length
  | [], _, h, _ => by cases h
  | b :: u', v, h, hp => by
    cases v with
    | nil => cases hp
    | cons c v' =>
      rw [isPrefixOf_cons_cons, Bool.and_eq_true, beq_iff_eq] at hp
      obtain ⟨he, hp'⟩ := hp
      subst he
      rw [oscTail] at h ⊢
      by_cases h1 : b = 7
      · rw [if_pos h1] at h ⊢
        exact h
      · rw [if_neg h1] at h ⊢
        by_cases h2 : b = 27 ∧ u'.head? = some 92
        · have h2' : b = 27 ∧ v'.head? = some 92 := by
            obtain ⟨hb, hh⟩ := h2
            cases u' with
            | nil => cases hh
            | cons r u'' =>
              simp only [List.head?, Option.some.injEq] at hh
              subst hh
              cases v' with
              | nil => cases hp'
              | cons r' v'' =>
                rw [isPrefixOf_cons_cons, Bool.and_eq_true, beq_iff_eq] at hp'
                exact ⟨hb, by simp [List.head?, hp'.1.symm]⟩
          rw [if_pos h2] at h
          rw [if_pos h2']
          exact h
        · have hu' : u' ≠ [] := by
            intro he
            subst he
            rw [if_neg h2] at h
            cases h
          have h2' : ¬ (b = 27 ∧ v'.head? = some 92) := by
            intro hcon
            apply h2
            obtain ⟨hb, hh⟩ := hcon
            refine ⟨hb, ?_⟩
            cases u' with
            | nil => exact absurd rfl hu'
            | cons r u'' =>
              cases v' with
              | nil => cases hp'
              | cons r' v'' =>
                rw [isPrefixOf_cons_cons, Bool.and_eq_true, beq_iff_eq] at hp'
                simp only [List.head?, Option.some.injEq] at hh ⊢
                omega
          rw [if_neg h2] at h
          rw [if_neg h2']
          cases hc : oscTail u' with
          | none => rw [hc] at h; cases h
          | some m =>
            rw [hc] at h
            simp only [Option.map, Option.some.injEq, List.length_cons] at h
            have hm : m = u'.length := by omega
            subst hm
            rw [oscTail_mono hc hp']
            simp [List.length_cons]

theorem oscTail_take :
    ∀ {u : List Nat} {k : Nat}, oscTail u = some k →
      oscTail (u.take k) = some k ∧ (u.take k).length = k
  | [], _, h => by cases h
  | b :: u', k, h => by
    rw [oscTail] at h
    by_cases h1 : b = 7
    · rw [if_pos h1] at h
      cases h
      refine ⟨?_, rfl⟩
      rw [List.take_succ_cons, List.take_zero, oscTail, if_pos h1]
    · rw [if_neg h1] at h
      by_cases h2 : b = 27 ∧ u'.head? = some 92
      · rw [if_pos h2] at h
        cases h
        obtain ⟨hb, hh⟩ := h2
        cases u' with
        | nil => cases hh
        | cons r u'' =>
          simp only [List.head?, Option.some.injEq] at hh
          subst hh
          refine ⟨?_, rfl⟩
          rw [List.take_succ_cons, List.take_succ_cons, List.take_zero,
            oscTail, if_neg h1, if_pos ⟨hb, rfl⟩]
      · rw [if_neg h2] at h
        cases hc : oscTail u' with
        | none => rw [hc] at h; cases h
        | some m =>
          rw [hc] at h
          simp only [Option.map, Option.some.injEq] at h
          subst h
          obtain ⟨ht, hl⟩ := oscTail_take hc
          have hm1 : 1 ≤ m := oscTail_pos hc
          have hu' : u' ≠ [] := by
            intro he
            rw [he] at hc
            cases hc
          have h2' : ¬ (b = 27 ∧ (u'.take m).head? = some 92) := by
            intro hcon
            apply h2
            obtain ⟨hb, hh⟩ := hcon
            refine ⟨hb, ?_⟩
            cases u' with
            | nil => exact absurd rfl hu'
            | cons r u'' =>
              cases m with
              | zero => omega
              | succ m' =>
                rw [List.take_succ_cons] at hh
                simpa using hh
          rw [List.take_succ_cons]
          constructor
          · rw [oscTail, if_neg h1, if_neg h2', ht]
            rfl
          · simp [hl]

theorem csiLen_facts :
    ∀ {s : List Nat} {k : Nat}, csiLen s = some k →
      1 ≤ k ∧ k ≤ s.length ∧ csiLen (s.take k) = some k ∧ (s.take k).length = k := by
  intro s k h
  cases s with
  | nil => simp [csiLen] at h
  | cons a s' =>
    cases s' with
    | nil => simp [csiLen] at h
    | cons b rest =>
      simp only [csiLen] at h
      by_cases hab : a = 27 ∧ b = 91
      · rw [if_pos hab] at h
        cases hc : csiTail rest with
        | none => rw [hc] at h; cases h
        | some m =>
          rw [hc] at h
          simp only [Option.map, Option.some.injEq] at h
          subst h
          obtain ⟨ht, hl⟩ := csiTail_take hc
          have hle := csiTail_le hc
          refine ⟨by omega, by simp only [List.length_cons]; omega, ?_, ?_⟩
          · rw [List.take_succ_cons, List.take_succ_cons]
            simp only [csiLen]
            rw [if_pos hab, ht]
            rfl
          · rw [List.take_succ_cons, List.take_succ_cons]
            simp [hl]
      · rw [if_neg hab] at h
        cases h

theorem csiLen_mono {t s : List Nat} (h : csiLen t = some t.length)
    (hp : t.isPrefixOf s = true) : csiLen s = some t.length := by
  cases t with
  | nil => simp [csiLen] at h
  | cons a t' =>
    cases t' with
    | nil => simp [csiLen] at h
    | cons b rest =>
      simp only [csiLen] at h
      by_cases hab : a = 27 ∧ b = 91
      · rw [if_pos hab] at h
        cases hc : csiTail rest with
        | none => rw [hc] at h; cases h
        | some m =>
          rw [hc] at h
          simp only [Option.map, Option.some.injEq, List.length_cons] at h
          have hm : m = rest.length := by omega
          subst hm
          cases s with
          | nil => cases hp
          | cons a' s' =>
            rw [isPrefixOf_cons_cons, Bool.and_eq_true, beq_iff_eq] at hp
            obtain ⟨he, hp1⟩ := hp
            subst he
            cases s' with
            | nil => cases hp1
            | cons b' v =>
              rw [isPrefixOf_cons_cons, Bool.and_eq_true, beq_iff_eq] at hp1
              obtain ⟨he', hp2⟩ := hp1
              subst he'
              simp only [csiLen]
              rw [if_pos hab, csiTail_mono hc hp2]
              simp [List.length_cons]
      · rw [if_neg hab] at h
        cases h

theorem oscLen_facts :
    ∀ {s : List Nat} {k : Nat}, oscLen s = some k →
      1 ≤ k ∧ k ≤ s.length ∧ oscLen (s.take k) = some k ∧ (s.take k).length = k := by
  intro s k h
  cases s with
  | nil => simp [oscLen] at h
  | cons a s' =>
    cases s' with
    | nil => simp [oscLen] at h
    | cons b rest =>
      simp only [oscLen] at h
      by_cases hab : a = 27 ∧ b = 93
      · rw [if_pos hab] at h
        cases hc : oscTail rest with
        | none => rw [hc] at h; cases h
        | some m =>
          rw [hc] at h
          simp only [Option.map, Option.some.injEq] at h
          subst h
          obtain ⟨ht, hl⟩ := oscTail_take hc
          have hle := oscTail_le hc
          refine ⟨by omega, by simp only [List.length_cons]; omega, ?_, ?_⟩
          · rw [List.take_succ_cons, List.take_succ_cons]
            simp only [oscLen]
            rw [if_pos hab, ht]
            rfl
          · rw [List.take_succ_cons, List.take_succ_cons]
            simp [hl]
      · rw [if_neg hab] at h
        cases h

theorem oscLen_mono {t s : List Nat} (h : oscLen t = some t.length)
    (hp : t.isPrefixOf s = true) : oscLen s = some t.length := by
  cases t with
  | nil => simp [oscLen] at h
  | cons a t' =>
    cases t' with
    | nil => simp [oscLen] at h
    | cons b rest =>
      simp only [oscLen] at h
      by_cases hab : a = 27 ∧ b = 93
      · rw [if_pos hab] at h
        cases hc : oscTail rest with
        | none => rw [hc] at h; cases h
        | some m =>
          rw [hc] at h
          simp only [Option.map, Option.some.injEq, List.length_cons] at h
          have hm : m = rest.length := by omega
          subst hm
          cases s with
          | nil => cases hp
          | cons a' s' =>
            rw [isPrefixOf_cons_cons, Bool.and_eq_true, beq_iff_eq] at hp
            obtain ⟨he, hp1⟩ := hp
            subst he
            cases s' with
            | nil => cases hp1
            | cons b' v =>
              rw [isPrefixOf_cons_cons, Bool.and_eq_true, beq_iff_eq] at hp1
              obtain ⟨he', hp2⟩ := hp1
              subst he'
              simp only [oscLen]
              rw [if_pos hab, oscTail_mono hc hp2]
              simp [List.length_cons]
      · rw [if_neg hab] at h
        cases h

theorem twoByteLen_facts :
    ∀ {s : List Nat} {k : Nat}, twoByteLen s = some k →
      k = 2 ∧ 2 ≤ s.length ∧ twoByteLen (s.take k) = some k ∧ (s.take k).length = k := by
  intro s k h
  cases s with
  | nil => simp [twoByteLen] at h
  | cons a s' =>
    cases s' with
    | nil => simp [twoByteLen] at h
    | cons b rest =>
      simp only [twoByteLen] at h
      by_cases hab : a = 27 ∧ 0x20 ≤ b ∧ b ≤ 0x7E ∧ b ≠ 91 ∧ b ≠ 93
      · rw [if_pos hab] at h
        cases h
        refine ⟨rfl, by simp, ?_, rfl⟩
        rw [List.take_succ_cons, List.take_succ_cons, List.take_zero]
        simp only [twoByteLen]
        rw [if_pos hab]
      · rw [if_neg hab] at h
        cases h

theorem twoByteLen_mono {t s : List Nat} (h : twoByteLen t = some t.length)
    (hp : t.isPrefixOf s = true) : twoByteLen s = some t.length := by
  cases t with
  | nil => simp [twoByteLen] at h
  | cons a t' =>
    cases t' with
    | nil => simp [twoByteLen] at h
    | cons b rest =>
      simp only [twoByteLen] at h
      by_cases hab : a = 27 ∧ 0x20 ≤ b ∧ b ≤ 0x7E ∧ b ≠ 91 ∧ b ≠ 93
      · rw [if_pos hab] at h
        cases s with
        | nil => cases hp
        | cons a' s' =>
          rw [isPrefixOf_cons_cons, Bool.and_eq_true, beq_iff_eq] at hp
          obtain ⟨he, hp1⟩ := hp
          subst he
          cases s' with
          | nil => cases hp1
          | cons b' v =>
            rw [isPrefixOf_cons_cons, Bool.and_eq_true, beq_iff_eq] at hp1
            obtain ⟨he', -⟩ := hp1
            subst he'
            simp only [twoByteLen]
            rw [if_pos hab]
            exact h
      · rw [if_neg hab] at h
        cases h

theorem capLen_eq_zero :
    ∀ {caps : List wcstring} {s : wcstring}, (∀ c ∈ caps, c ≠ []) →
      capLen caps s = 0 → ∀ c ∈ caps, c.isPrefixOf s = false
  | [], _, _, _ => by
    intro c hc
    cases hc
  | c0 :: rest, s, hcaps, h => by
    simp only [capLen] at h
    by_cases hp : c0.isPrefixOf s = true
    · rw [if_pos hp] at h
      exact absurd (List.eq_nil_of_length_eq_zero h) (hcaps c0 (by simp))
    · rw [if_neg hp] at h
      intro c hc
      rcases List.mem_cons.mp hc with he | hc'
      · subst he
        cases hb : c.isPrefixOf s with
        | false => rfl
        | true => exact absurd hb hp
      · exact capLen_eq_zero (fun d hd => hcaps d (List.mem_cons_of_mem c0 hd)) h c hc'

theorem capLen_nonzero :
    ∀ {caps : List wcstring} {s : wcstring}, capLen caps s ≠ 0 →
      ∃ c ∈ caps, c.isPrefixOf s = true ∧ capLen caps s = c.length
  | [], _, h => absurd rfl h
  | c0 :: rest, s, h => by
    simp only [capLen] at h ⊢
    by_cases hp : c0.isPrefixOf s = true
    · rw [if_pos hp] at h ⊢
      exact ⟨c0, by simp, hp, rfl⟩
    · rw [if_neg hp] at h ⊢
      obtain ⟨c, hc, hcp, hlen⟩ := capLen_nonzero h
      exact ⟨c, List.mem_cons_of_mem c0 hc, hcp, hlen⟩

theorem find_escape_code_nonzero {l : List wcstring} {s : wcstring}
    (h : find_escape_code l s ≠ 0) :
    ∃ c ∈ l, c.isPrefixOf s = true ∧ find_escape_code l s = c.length := by
  by_cases h0 : upperBound l s = 0
  · exfalso
    apply h
    simp only [find_escape_code]
    rw [if_pos h0]
  · have hlt : upperBound l s - 1 < l.length := by
      have := upperBound_le l s
      omega
    by_cases hp : (l.getD (upperBound l s - 1) []).isPrefixOf s = true
    · refine ⟨l.getD (upperBound l s - 1) [], getD_mem_of_lt hlt, hp, ?_⟩
      simp only [find_escape_code]
      rw [if_neg h0, if_pos hp]
    · exfalso
      apply h
      simp only [find_escape_code]
      rw [if_neg h0, if_neg hp]

/-! ### Claim C4 -/

/-- C4: `escape_code_length(s) = 0` iff no recognized escape sequence begins at
`s[0]`; when nonzero, the returned length is at most `|s|` and `s[0..len]`
parses as a single escape sequence.  Hypotheses: the escape cache is sorted
and prefix-free (its own invariant), and capability strings are nonempty. -/
theorem c4_escape_code_length_correct (cache caps : List wcstring) (s : wcstring)
    (hs : SortedLt cache) (hpf : PrefixFree cache)
    (hcaps : ∀ c ∈ caps, c ≠ ([] : wcstring)) :
    (escape_code_length cache caps s = 0 ↔ ¬ RecognizedSeq cache caps s) ∧
    escape_code_length cache caps s ≤ s.length ∧
    (escape_code_length cache caps s ≠ 0 →
      (s.take (escape_code_length cache caps s)).length =
        escape_code_length cache caps s ∧
      SingleSeq cache caps (s.take (escape_code_length cache caps s))) := by
  by_cases hn : find_escape_code cache s = 0
  · cases hcsi : csiLen s with
    | some k =>
      obtain ⟨hk1, hkle, hktake, hklen⟩ := csiLen_facts hcsi
      have hesc : escape_code_length cache caps s = k := by
        simp only [escape_code_length]
        rw [if_neg (not_not_intro hn), hcsi]
      have hne0 : escape_code_length cache caps s ≠ 0 := by
        rw [hesc]
        omega
      have htne : s.take k ≠ [] := by
        intro he
        rw [he] at hklen
        simp at hklen
        omega
      have hseq : SingleSeq cache caps (s.take k) :=
        Or.inr (Or.inl (by rw [hktake, hklen]))
      have hrec : RecognizedSeq cache caps s := ⟨s.take k, htne, take_isPref k s, hseq⟩
      refine ⟨⟨fun h0 => absurd h0 hne0, fun hnr => absurd hrec hnr⟩,
        by rw [hesc]; exact hkle, fun _ => ?_⟩
      rw [hesc]
      exact ⟨hklen, hseq⟩
    | none =>
      cases hosc : oscLen s with
      | some k =>
        obtain ⟨hk1, hkle, hktake, hklen⟩ := oscLen_facts hosc
        have hesc : escape_code_length cache caps s = k := by
          simp only [escape_code_length]
          rw [if_neg (not_not_intro hn), hcsi, hosc]
        have hne0 : escape_code_length cache caps s ≠ 0 := by
          rw [hesc]
          omega
        have htne : s.take k ≠ [] := by
          intro he
          rw [he] at hklen
          simp at hklen
          omega
        have hseq : SingleSeq cache caps (s.take k) :=
          Or.inr (Or.inr (Or.inl (by rw [hktake, hklen])))
        have hrec : RecognizedSeq cache caps s := ⟨s.take k, htne, take_isPref k s, hseq⟩
        refine ⟨⟨fun h0 => absurd h0 hne0, fun hnr => absurd hrec hnr⟩,
          by rw [hesc]; exact hkle, fun _ => ?_⟩
        rw [hesc]
        exact ⟨hklen, hseq⟩
      | none =>
        cases htwo : twoByteLen s with
        | some k =>
          obtain ⟨hk2, hkle, hktake, hklen⟩ := twoByteLen_facts htwo
          have hesc : escape_code_length cache caps s = k := by
            simp only [escape_code_length]
            rw [if_neg (not_not_intro hn), hcsi, hosc, htwo]
          have hne0 : escape_code_length cache caps s ≠ 0 := by
            rw [hesc]
            omega
          have htne : s.take k ≠ [] := by
            intro he
            rw [he] at hklen
            simp at hklen
            omega
          have hseq : SingleSeq cache caps (s.take k) :=
            Or.inr (Or.inr (Or.inr (Or.inl (by rw [hktake, hklen]))))
          have hrec : RecognizedSeq cache caps s :=
            ⟨s.take k, htne, take_isPref k s, hseq⟩
          refine ⟨⟨fun h0 => absurd h0 hne0, fun hnr => absurd hrec hnr⟩,
            by rw [hesc, hk2]; exact hkle, fun _ => ?_⟩
          rw [hesc]
          exact ⟨hklen, hseq⟩
        | none =>
          have hesc : escape_code_length cache caps s = capLen caps s := by
            simp only [escape_code_length]
            rw [if_neg (not_not_intro hn), hcsi, hosc, htwo]
          by_cases hcap : capLen caps s = 0
          · have hz : escape_code_length cache caps s = 0 := by rw [hesc, hcap]
            refine ⟨⟨fun _ => ?_, fun _ => hz⟩,
              by rw [hz]; exact Nat.zero_le _, fun hne => absurd hz hne⟩
            rintro ⟨t, htne, htp, hseq⟩
            rcases hseq with hmem | hcsit | hosct | htwot | hcapt
            · have := find_escape_code_of_pref hs hpf hmem htp
              rw [hn] at this
              exact htne (List.eq_nil_of_length_eq_zero this.symm)
            · have := csiLen_mono hcsit htp
              rw [hcsi] at this
              cases this
            · have := oscLen_mono hosct htp
              rw [hosc] at this
              cases this
            · have := twoByteLen_mono htwot htp
              rw [htwo] at this
              cases this
            · have := capLen_eq_zero hcaps hcap t hcapt
              rw [htp] at this
              cases this
          · obtain ⟨c, hcmem, hcp, hlen⟩ := capLen_nonzero hcap
            have hcne : c ≠ [] := hcaps c hcmem
            have hesc' : escape_code_length cache caps s = c.length := by
              rw [hesc, hlen]
            have hne0 : escape_code_length cache caps s ≠ 0 := by
              rw [hesc']
              intro he
              exact hcne (List.eq_nil_of_length_eq_zero he)
            have hseq : SingleSeq cache caps c :=
              Or.inr (Or.inr (Or.inr (Or.inr hcmem)))
            have hrec : RecognizedSeq cache caps s := ⟨c, hcne, hcp, hseq⟩
            refine ⟨⟨fun h0 => absurd h0 hne0, fun hnr => absurd hrec hnr⟩,
              by rw [hesc']; exact pref_length_le hcp, fun _ => ?_⟩
            rw [hesc', prefEqTake hcp]
            exact ⟨rfl, hseq⟩
  · obtain ⟨c, hcmem, hcp, hlen⟩ := find_escape_code_nonzero hn
    have hcne : c ≠ [] := by
      intro he
      apply hn
      rw [hlen, he]
      rfl
    have hesc : escape_code_length cache caps s = c.length := by
      simp only [escape_code_length]
      rw [if_pos hn, hlen]
    have hne0 : escape_code_length cache caps s ≠ 0 := by
      rw [hesc]
      intro he
      exact hcne (List.eq_nil_of_length_eq_zero he)
    have hrec : RecognizedSeq cache caps s := ⟨c, hcne, hcp, Or.inl hcmem⟩
    refine ⟨⟨fun h0 => absurd h0 hne0, fun hnr => absurd hrec hnr⟩,
      by rw [hesc]; exact pref_length_le hcp, fun _ => ?_⟩
    rw [hesc, prefEqTake hcp]
    exact ⟨rfl, Or.inl hcmem⟩

theorem c4_escape_code_length_correct_witness :
    (escape_code_length [] [] [27, 91, 51, 109] = 0 ↔
      ¬ RecognizedSeq [] [] [27, 91, 51, 109]) ∧
    escape_code_length [] [] [27, 91, 51, 109] ≤ ([27, 91, 51, 109] : wcstring).length ∧
    (escape_code_length [] [] [27, 91, 51, 109] ≠ 0 →
      (([27, 91, 51, 109] : wcstring).take
          (escape_code_length [] [] [27, 91, 51, 109])).length =
        escape_code_length [] [] [27, 91, 51, 109] ∧
      SingleSeq [] []
        (([27, 91, 51, 109] : wcstring).take
          (escape_code_length [] [] [27, 91, 51, 109]))) :=
  c4_escape_code_length_correct [] [] [27, 91, 51, 109]
    (by decide) (by decide) (by decide)
